import Mathlib

/-!
Verification development for the external integer sort in src/sorting/sort.py.

Modelling conventions:
* A file's content is a list of bytes (List Nat, each byte below 256) or, at
  the record level, the list of 4-byte little-endian signed integers that the
  bytes encode (CPython array type code i on a 32-bit-int platform).
* The worker pool is modelled sequentially: each submitted task completes
  immediately and its callback appends its result to the queue.  This is the
  in-submission-order completion schedule of the real pool; the properties
  settled here (multiset preservation, sortedness, termination, destructive
  merge) do not depend on the completion schedule.
* Loops whose termination is itself in question carry an explicit fuel
  parameter; exhausted fuel yields none.
-/

namespace ExtSort

/-- INT_PER_CHUNK from sort.py: number of ints in an I/O buffer. -/
def INT_PER_CHUNK : Nat := 4096

/-- INT_PER_FILE from sort.py: number of ints per cut segment file. -/
def INT_PER_FILE : Nat := 4096 * 128

/-- MERGES from sort.py: number of files merged at once. -/
def MERGES : Nat := 16

/-- Width in bytes of one record (array type code i occupies 4 bytes). -/
def RECORD_WIDTH : Nat := 4

/-- Fuel-driven chunking of a list into blocks of k elements.  This models the
read loop of cutter in sort.py: each f.read call returns at most k bytes and
the loop stops at the first empty read.  Fuel at least the length of the list
is always sufficient because k is positive at every use site. -/
def chunksF (k : Nat) : Nat → List α → List (List α)
  | 0, _ => []
  | _ + 1, [] => []
  | fuel + 1, a :: l => (a :: l).take k :: chunksF k fuel ((a :: l).drop k)

theorem chunksF_nil (k fuel : Nat) : chunksF k fuel ([] : List α) = [] := by
  cases fuel <;> rfl

theorem chunksF_flatten {k : Nat} (hk : 0 < k) :
    ∀ (fuel : Nat) (l : List α), l.length ≤ fuel → (chunksF k fuel l).flatten = l := by
  intro fuel
  induction fuel with
  | zero =>
    intro l hl
    have : l = [] := List.eq_nil_of_length_eq_zero (Nat.le_zero.mp hl)
    simp [this, chunksF]
  | succ n ih =>
    intro l hl
    cases l with
    | nil => simp [chunksF]
    | cons a t =>
      have hdrop : ((a :: t).drop k).length ≤ n := by
        simp only [List.length_drop, List.length_cons]
        simp only [List.length_cons] at hl
        omega
      simp [chunksF, ih _ hdrop]

theorem chunksF_mem_length {k fuel : Nat} {l : List α} :
    ∀ c ∈ chunksF k fuel l, c.length ≤ k := by
  induction fuel generalizing l with
  | zero => intro c hc; simp [chunksF] at hc
  | succ n ih =>
    intro c hc
    cases l with
    | nil => simp [chunksF] at hc
    | cons a t =>
      simp only [chunksF, List.mem_cons] at hc
      rcases hc with h | h
      · subst h; simp
      · exact ih c h

theorem chunksF_ne_nil {k fuel : Nat} {l : List α} (hf : 0 < fuel) (hl : l ≠ []) :
    chunksF k fuel l ≠ [] := by
  cases fuel with
  | zero => omega
  | succ n =>
    cases l with
    | nil => exact absurd rfl hl
    | cons a t => simp [chunksF]

/-- Every chunk except possibly the last one is full. -/
theorem chunksF_dropLast_length {k : Nat} :
    ∀ {fuel : Nat} {l : List α}, ∀ c ∈ (chunksF k fuel l).dropLast, c.length = k := by
  intro fuel
  induction fuel with
  | zero => intro l c hc; simp [chunksF] at hc
  | succ n ih =>
    intro l c hc
    cases l with
    | nil => simp [chunksF] at hc
    | cons a t =>
      simp only [chunksF] at hc
      rcases hrest : chunksF k n ((a :: t).drop k) with _ | ⟨r, rs⟩
      · rw [hrest] at hc; simp at hc
      · rw [hrest] at hc
        rw [List.dropLast_cons_of_ne_nil (by simp)] at hc
        rcases List.mem_cons.mp hc with h | h
        · -- c is the first chunk and there is a later one, so the tail was nonempty
          subst h
          have hne : (a :: t).drop k ≠ [] := by
            intro hdrop
            rw [hdrop, chunksF_nil] at hrest
            exact List.cons_ne_nil _ _ hrest.symm
          have hklen : k < (a :: t).length := by
            by_contra hle
            push_neg at hle
            exact hne (List.drop_eq_nil_of_le hle)
          rw [List.length_take]
          simp only [List.length_cons] at hklen ⊢
          omega
        · exact ih c (by rw [hrest]; exact h)

/-- The number of chunks depends only on the length of the list. -/
theorem chunksF_length_congr {k : Nat} :
    ∀ {fuel : Nat} {l₁ l₂ : List α}, l₁.length = l₂.length →
      (chunksF k fuel l₁).length = (chunksF k fuel l₂).length := by
  intro fuel
  induction fuel with
  | zero => intro l₁ l₂ _; simp [chunksF]
  | succ n ih =>
    intro l₁ l₂ hlen
    cases l₁ with
    | nil =>
      cases l₂ with
      | nil => rfl
      | cons b t₂ => simp at hlen
    | cons a t₁ =>
      cases l₂ with
      | nil => simp at hlen
      | cons b t₂ =>
        simp only [chunksF, List.length_cons]
        have : ((a :: t₁).drop k).length = ((b :: t₂).drop k).length := by
          simp only [List.length_drop, List.length_cons]
          simp only [List.length_cons] at hlen
          omega
        rw [ih this]

/-! ### Binary codec: 4-byte little-endian signed integers -/

/-- Decode four bytes (little-endian) into one signed 32-bit record value,
as CPython array with type code i does on the usual platforms. -/
def decodeNum (a b c d : Nat) : Int :=
  if a + 256 * b + 65536 * c + 16777216 * d < 2147483648 then
    ((a + 256 * b + 65536 * c + 16777216 * d : Nat) : Int)
  else
    ((a + 256 * b + 65536 * c + 16777216 * d : Nat) : Int) - 4294967296

/-- Decode a byte sequence into its record sequence, four bytes per record.
Trailing bytes that do not form a whole record decode to nothing; every use
site either guarantees a whole number of records or models the error case
separately. -/
def decodeInts : List Nat → List Int
  | a :: b :: c :: d :: rest => decodeNum a b c d :: decodeInts rest
  | _ => []

/-- Encode one signed 32-bit record value as four little-endian bytes. -/
def encodeInt (i : Int) : List Nat :=
  [(i % 4294967296).toNat % 256, (i % 4294967296).toNat / 256 % 256,
   (i % 4294967296).toNat / 65536 % 256, (i % 4294967296).toNat / 16777216 % 256]

/-- Encode a record sequence as a byte sequence. -/
def encodeInts (l : List Int) : List Nat := (l.map encodeInt).flatten

/-- A record value representable in 4 bytes. -/
def InRange (i : Int) : Prop := -2147483648 ≤ i ∧ i < 2147483648

theorem decodeNum_inRange {a b c d : Nat} (ha : a < 256) (hb : b < 256)
    (hc : c < 256) (hd : d < 256) : InRange (decodeNum a b c d) := by
  unfold decodeNum InRange
  split <;> omega

theorem decodeInts_inRange {bytes : List Nat} (h : ∀ x ∈ bytes, x < 256) :
    ∀ i ∈ decodeInts bytes, InRange i := by
  induction bytes using decodeInts.induct with
  | case1 a b c d rest ih =>
    intro i hi
    simp only [decodeInts, List.mem_cons] at hi
    rcases hi with hi | hi
    · subst hi
      exact decodeNum_inRange (h a (by simp)) (h b (by simp)) (h c (by simp))
        (h d (by simp))
    · exact ih (fun x hx => h x (by simp [hx])) i hi
  | case2 l h1 => intro i hi; rw [decodeInts] at hi
                  · simp at hi
                  · exact h1

theorem decodeNum_encodeInt {i : Int} (h : InRange i) :
    decodeInts (encodeInt i ++ rest) = i :: decodeInts rest := by
  obtain ⟨h1, h2⟩ := h
  show decodeInts (_ :: _ :: _ :: _ :: rest) = _
  rw [decodeInts]
  congr 1
  unfold decodeNum
  have hmod : i % 4294967296 = i ∨ i % 4294967296 = i + 4294967296 := by omega
  split <;> omega

theorem decodeInts_encodeInts {l : List Int} (h : ∀ i ∈ l, InRange i) :
    decodeInts (encodeInts l) = l := by
  induction l with
  | nil => rfl
  | cons a t ih =>
    have : encodeInts (a :: t) = encodeInt a ++ encodeInts t := by
      simp [encodeInts]
    rw [this, decodeNum_encodeInt (h a (by simp)), ih (fun i hi => h i (by simp [hi]))]

theorem encodeInt_length (i : Int) : (encodeInt i).length = RECORD_WIDTH := rfl

theorem encodeInts_length (l : List Int) :
    (encodeInts l).length = RECORD_WIDTH * l.length := by
  induction l with
  | nil => rfl
  | cons a t ih =>
    have : encodeInts (a :: t) = encodeInt a ++ encodeInts t := by simp [encodeInts]
    rw [this, List.length_append, encodeInt_length, ih, List.length_cons,
      Nat.mul_succ]
    omega

theorem decodeInts_length {bytes : List Nat} (h : RECORD_WIDTH ∣ bytes.length) :
    (decodeInts bytes).length = bytes.length / RECORD_WIDTH := by
  induction bytes using decodeInts.induct with
  | case1 a b c d rest ih =>
    have hrest : RECORD_WIDTH ∣ rest.length := by
      rcases h with ⟨m, hm⟩
      simp only [List.length_cons] at hm
      exact ⟨m - 1, by unfold RECORD_WIDTH at hm ⊢; omega⟩
    simp only [decodeInts, List.length_cons, ih hrest]
    rcases hrest with ⟨m, hm⟩
    simp only [List.length_cons, hm]
    unfold RECORD_WIDTH at hm ⊢
    omega
  | case2 l h1 =>
    -- fewer than four bytes remain; divisibility forces zero bytes
    rcases l with _ | ⟨a, _ | ⟨b, _ | ⟨c, _ | ⟨d, rest⟩⟩⟩⟩
    · rfl
    · obtain ⟨m, hm⟩ := h; simp [RECORD_WIDTH] at hm; omega
    · obtain ⟨m, hm⟩ := h; simp [RECORD_WIDTH] at hm; omega
    · obtain ⟨m, hm⟩ := h; simp [RECORD_WIDTH] at hm; omega
    · exact absurd rfl (h1 a b c d rest)

/-! ### K-way streaming merge, the model of heapq.merge -/

/-- The current head of every nonempty input sequence. -/
def headsOf (ll : List (List Int)) : List Int := ll.filterMap List.head?

/-- Minimum of a list of candidate heads. -/
def minHead? : List Int → Option Int
  | [] => none
  | x :: t =>
    match minHead? t with
    | none => some x
    | some m => some (min x m)

/-- Advance the first input sequence whose head is m, removing that head.
This models one pop-and-refill step of the heap in heapq.merge. -/
def advanceFirst (m : Int) : List (List Int) → List (List Int)
  | [] => []
  | [] :: ls => [] :: advanceFirst m ls
  | (x :: xs) :: ls => if x = m then xs :: ls else (x :: xs) :: advanceFirst m ls

/-- Fuel-driven k-way merge modelling heapq.merge: repeatedly emit the
smallest current head among the input sequences.  Fuel equal to the total
number of records is sufficient. -/
def mergeAllF : Nat → List (List Int) → List Int
  | 0, _ => []
  | fuel + 1, ll =>
    match minHead? (headsOf ll) with
    | none => []
    | some m => m :: mergeAllF fuel (advanceFirst m ll)

theorem minHead?_eq_none {l : List Int} : minHead? l = none ↔ l = [] := by
  cases l with
  | nil => simp [minHead?]
  | cons x t =>
    simp only [minHead?]
    constructor
    · intro h
      cases hm : minHead? t <;> rw [hm] at h <;> simp at h
    · intro h; exact absurd h (List.cons_ne_nil x t)

theorem minHead?_mem {l : List Int} {m : Int} (h : minHead? l = some m) : m ∈ l := by
  induction l generalizing m with
  | nil => simp [minHead?] at h
  | cons x t ih =>
    simp only [minHead?] at h
    cases hm : minHead? t with
    | none =>
      rw [hm] at h
      simp only [Option.some.injEq] at h
      rw [← h]; exact List.mem_cons_self x t
    | some m' =>
      rw [hm] at h
      simp only [Option.some.injEq] at h
      rcases min_choice x m' with hmin | hmin
      · rw [hmin] at h; rw [← h]; exact List.mem_cons_self x t
      · rw [hmin] at h; rw [← h]; exact List.mem_cons_of_mem x (ih hm)

theorem minHead?_le {l : List Int} {m : Int} (h : minHead? l = some m) :
    ∀ x ∈ l, m ≤ x := by
  induction l generalizing m with
  | nil => simp
  | cons x t ih =>
    intro y hy
    simp only [minHead?] at h
    cases hm : minHead? t with
    | none =>
      rw [hm] at h
      simp only [Option.some.injEq] at h
      have ht : t = [] := minHead?_eq_none.mp hm
      subst ht
      rcases List.mem_singleton.mp hy with rfl
      omega
    | some m' =>
      rw [hm] at h
      simp only [Option.some.injEq] at h
      rw [← h]
      rcases List.mem_cons.mp hy with hEq | hmem
      · rw [hEq]; exact min_le_left _ _
      · exact le_trans (min_le_right _ _) (ih hm y hmem)

theorem headsOf_nil_cons (ls : List (List Int)) :
    headsOf ([] :: ls) = headsOf ls := by simp [headsOf]

theorem headsOf_cons_cons (x : Int) (xs : List Int) (ls : List (List Int)) :
    headsOf ((x :: xs) :: ls) = x :: headsOf ls := by simp [headsOf]

theorem headsOf_eq_nil_flatten {ll : List (List Int)} (h : headsOf ll = []) :
    ll.flatten = [] := by
  induction ll with
  | nil => rfl
  | cons s ls ih =>
    cases s with
    | nil => rw [headsOf_nil_cons] at h; simp [ih h]
    | cons x xs => rw [headsOf_cons_cons] at h; exact absurd h (List.cons_ne_nil _ _)

theorem headsOf_subset_flatten {ll : List (List Int)} {h : Int}
    (hh : h ∈ headsOf ll) : h ∈ ll.flatten := by
  obtain ⟨s, hs, hhead⟩ := List.mem_filterMap.mp hh
  exact List.mem_flatten.mpr ⟨s, hs, List.mem_of_mem_head? hhead⟩

theorem advanceFirst_perm {ll : List (List Int)} {m : Int}
    (h : m ∈ headsOf ll) :
    List.Perm (m :: (advanceFirst m ll).flatten) ll.flatten := by
  induction ll with
  | nil => simp [headsOf] at h
  | cons s ls ih =>
    cases s with
    | nil =>
      rw [headsOf_nil_cons] at h
      simpa [advanceFirst] using ih h
    | cons x xs =>
      rw [headsOf_cons_cons] at h
      by_cases hxm : x = m
      · subst hxm
        simp [advanceFirst]
      · simp only [advanceFirst, if_neg hxm, List.flatten_cons]
        have hm : m ∈ headsOf ls := by
          rcases List.mem_cons.mp h with hEq | hmem
          · exact absurd hEq.symm hxm
          · exact hmem
        have h1 : List.Perm (m :: ((x :: xs) ++ (advanceFirst m ls).flatten))
            ((x :: xs) ++ (m :: (advanceFirst m ls).flatten)) :=
          List.perm_middle.symm
        exact h1.trans ((ih hm).append_left (x :: xs))

theorem advanceFirst_sorted {ll : List (List Int)} {m : Int}
    (h : ∀ s ∈ ll, s.Sorted (· ≤ ·)) :
    ∀ s ∈ advanceFirst m ll, s.Sorted (· ≤ ·) := by
  induction ll with
  | nil => simp [advanceFirst]
  | cons s ls ih =>
    cases s with
    | nil =>
      intro s' hs'
      rcases List.mem_cons.mp hs' with rfl | hmem
      · exact List.sorted_nil
      · exact ih (fun u hu => h u (List.mem_cons_of_mem _ hu)) s' hmem
    | cons x xs =>
      intro s' hs'
      by_cases hxm : x = m
      · rw [advanceFirst, if_pos hxm] at hs'
        rcases List.mem_cons.mp hs' with hEq | hmem
        · rw [hEq]; exact (h (x :: xs) (by simp)).of_cons
        · exact h s' (List.mem_cons_of_mem _ hmem)
      · rw [advanceFirst, if_neg hxm] at hs'
        rcases List.mem_cons.mp hs' with hEq | hmem
        · rw [hEq]; exact h (x :: xs) (by simp)
        · exact ih (fun u hu => h u (List.mem_cons_of_mem _ hu)) s' hmem

theorem minHead?_le_flatten {ll : List (List Int)} {m : Int}
    (hs : ∀ s ∈ ll, s.Sorted (· ≤ ·)) (hm : minHead? (headsOf ll) = some m) :
    ∀ x ∈ ll.flatten, m ≤ x := by
  intro x hx
  obtain ⟨s, hsmem, hxs⟩ := List.mem_flatten.mp hx
  cases s with
  | nil => simp at hxs
  | cons h t =>
    have hhead : h ∈ headsOf ll :=
      List.mem_filterMap.mpr ⟨h :: t, hsmem, rfl⟩
    have h1 : m ≤ h := minHead?_le hm h hhead
    rcases List.mem_cons.mp hxs with rfl | hmem
    · exact h1
    · exact le_trans h1 (List.rel_of_sorted_cons (hs _ hsmem) x hmem)

theorem mergeAllF_perm :
    ∀ {fuel : Nat} {ll : List (List Int)}, ll.flatten.length ≤ fuel →
      List.Perm (mergeAllF fuel ll) ll.flatten := by
  intro fuel
  induction fuel with
  | zero =>
    intro ll h
    have : ll.flatten = [] := List.eq_nil_of_length_eq_zero (Nat.le_zero.mp h)
    simp [mergeAllF, this]
  | succ n ih =>
    intro ll h
    rw [mergeAllF]
    cases hmin : minHead? (headsOf ll) with
    | none =>
      have : ll.flatten = [] := headsOf_eq_nil_flatten (minHead?_eq_none.mp hmin)
      simp [this]
    | some m =>
      have hmem : m ∈ headsOf ll := minHead?_mem hmin
      have hperm : List.Perm (m :: (advanceFirst m ll).flatten) ll.flatten :=
        advanceFirst_perm hmem
      have hlen : (advanceFirst m ll).flatten.length ≤ n := by
        have := hperm.length_eq
        simp only [List.length_cons] at this
        omega
      exact ((ih hlen).cons m).trans hperm

theorem mergeAllF_subset {fuel : Nat} {ll : List (List Int)} :
    ∀ x ∈ mergeAllF fuel ll, x ∈ ll.flatten := by
  induction fuel generalizing ll with
  | zero => simp [mergeAllF]
  | succ n ih =>
    intro x hx
    rw [mergeAllF] at hx
    cases hmin : minHead? (headsOf ll) with
    | none => rw [hmin] at hx; simp at hx
    | some m =>
      rw [hmin] at hx
      have hmem : m ∈ headsOf ll := minHead?_mem hmin
      rcases List.mem_cons.mp hx with rfl | hrec
      · exact headsOf_subset_flatten hmem
      · exact (advanceFirst_perm hmem).mem_iff.mp
          (List.mem_cons_of_mem m (ih x hrec))

theorem mergeAllF_sorted {fuel : Nat} {ll : List (List Int)}
    (hs : ∀ s ∈ ll, s.Sorted (· ≤ ·)) :
    (mergeAllF fuel ll).Sorted (· ≤ ·) := by
  induction fuel generalizing ll with
  | zero => simp [mergeAllF]
  | succ n ih =>
    rw [mergeAllF]
    cases hmin : minHead? (headsOf ll) with
    | none => exact List.sorted_nil
    | some m =>
      rw [List.sorted_cons]
      constructor
      · intro b hb
        have hbf : b ∈ (advanceFirst m ll).flatten := mergeAllF_subset b hb
        have hbll : b ∈ ll.flatten :=
          (advanceFirst_perm (minHead?_mem hmin)).mem_iff.mp
            (List.mem_cons_of_mem m hbf)
        exact minHead?_le_flatten hs hmin b hbll
      · exact ih (advanceFirst_sorted hs)

/-! ### Output buffering of merge_files -/

theorem set_take_succ :
    ∀ (l : List Int) (n : Nat) (a : Int), n < l.length →
      (l.set n a).take (n + 1) = l.take n ++ [a] := by
  intro l
  induction l with
  | nil => intro n a h; simp at h
  | cons x t ih =>
    intro n a h
    cases n with
    | zero => simp
    | succ k =>
      simp only [List.set_cons_succ, List.take_succ_cons]
      rw [ih k a (by simp only [List.length_cons] at h; omega)]
      rfl

/-- The block-buffered write loop of merge_files.  buf is the pre-allocated
output block (length chunkSize, zero-filled when fresh), cidx the fill index.
A full block is flushed and replaced by a fresh zero block; when the merged
stream ends, the first cidx entries of the current block are flushed. -/
def writeChunkedAux (chunkSize : Nat) : List Int → List Int → Nat → List Int
  | [], buf, cidx => buf.take cidx
  | i :: rest, buf, cidx =>
    if cidx + 1 = chunkSize then
      buf.set cidx i ++ writeChunkedAux chunkSize rest (List.replicate chunkSize 0) 0
    else
      writeChunkedAux chunkSize rest (buf.set cidx i) (cidx + 1)

/-- Content written by the buffered output loop of merge_files. -/
def writeChunked (chunkSize : Nat) (stream : List Int) : List Int :=
  writeChunkedAux chunkSize stream (List.replicate chunkSize 0) 0

theorem writeChunkedAux_eq (chunkSize : Nat) :
    ∀ (stream buf : List Int) (cidx : Nat), cidx < chunkSize →
      buf.length = chunkSize →
      writeChunkedAux chunkSize stream buf cidx = buf.take cidx ++ stream := by
  intro stream
  induction stream with
  | nil => intro buf cidx _ _; simp [writeChunkedAux]
  | cons i rest ih =>
    intro buf cidx hlt hlen
    rw [writeChunkedAux]
    by_cases hfull : cidx + 1 = chunkSize
    · rw [if_pos hfull]
      rw [ih (List.replicate chunkSize 0) 0 (by omega) (by simp)]
      have hset : buf.set cidx i = buf.take cidx ++ [i] := by
        have h1 : (buf.set cidx i).take (cidx + 1) = buf.take cidx ++ [i] :=
          set_take_succ buf cidx i (by omega)
        have h2 : (buf.set cidx i).take (cidx + 1) = buf.set cidx i := by
          apply List.take_of_length_le
          simp [List.length_set, hlen, hfull]
        rw [← h2, h1]
      rw [hset]
      simp
    · rw [if_neg hfull]
      rw [ih (buf.set cidx i) (cidx + 1) (by omega) (by simp [List.length_set, hlen])]
      rw [set_take_succ buf cidx i (by omega)]
      simp

/-- The buffered write emits exactly the merged stream: the zero padding of a
fresh block is never published and a partially filled final block is flushed
in full. -/
theorem writeChunked_eq {chunkSize : Nat} (hpos : 0 < chunkSize)
    (stream : List Int) : writeChunked chunkSize stream = stream := by
  rw [writeChunked, writeChunkedAux_eq chunkSize stream _ 0 hpos (by simp)]
  simp

/-! ### The sort pipeline at the record level -/

/-- Record content written by merge_files for the given input contents: the
k-way merged stream pushed through the block-buffered writer. -/
def mergeFilesContent (contents : List (List Int)) : List Int :=
  writeChunked INT_PER_CHUNK (mergeAllF contents.flatten.length contents)

theorem INT_PER_CHUNK_pos : 0 < INT_PER_CHUNK := by decide

theorem INT_PER_FILE_pos : 0 < INT_PER_FILE := by decide

theorem mergeFilesContent_perm (contents : List (List Int)) :
    List.Perm (mergeFilesContent contents) contents.flatten := by
  rw [mergeFilesContent, writeChunked_eq INT_PER_CHUNK_pos]
  exact mergeAllF_perm (Nat.le_refl _)

theorem mergeFilesContent_sorted {contents : List (List Int)}
    (h : ∀ s ∈ contents, s.Sorted (· ≤ ·)) :
    (mergeFilesContent contents).Sorted (· ≤ ·) := by
  rw [mergeFilesContent, writeChunked_eq INT_PER_CHUNK_pos]
  exact mergeAllF_sorted h

/-- Record-level model of sorter: load the whole segment and sort it
ascending, as sorted does in Python. -/
def sorterRecords (l : List Int) : List Int := List.insertionSort (· ≤ ·) l

/-- Record content produced by merger for the given input contents; a
single-element input list is returned unchanged (the short-circuit in
merger). -/
def mergerContent (contents : List (List Int)) : List Int :=
  if contents.length = 1 then contents.headI
  else mergeFilesContent contents

theorem mergerContent_perm (contents : List (List Int)) :
    List.Perm (mergerContent contents) contents.flatten := by
  rw [mergerContent]
  by_cases h : contents.length = 1
  · rw [if_pos h]
    match contents, h with
    | [x], _ => simp
  · rw [if_neg h]
    exact mergeFilesContent_perm contents

theorem mergerContent_sorted {contents : List (List Int)}
    (h : ∀ s ∈ contents, s.Sorted (· ≤ ·)) :
    (mergerContent contents).Sorted (· ≤ ·) := by
  rw [mergerContent]
  by_cases h1 : contents.length = 1
  · rw [if_pos h1]
    match contents, h1 with
    | [x], _ => exact h x (by simp)
  · rw [if_neg h1]
    exact mergeFilesContent_sorted h

/-- The reduction loop of merge_tasks under the sequential completion
schedule: with more than one ready segment, take the first merges of them,
submit the merge, and append its output at the back of the queue; with
exactly one segment the loop returns it; with none, the pool is closed,
joined and renewed forever, which the fuel recursion renders as none. -/
def mergeLoopF (merges : Nat) : Nat → List (List Int) → Option (List Int)
  | 0, _ => none
  | fuel + 1, [] => mergeLoopF merges fuel []
  | _ + 1, [x] => some x
  | fuel + 1, a :: b :: t =>
    mergeLoopF merges fuel
      (((a :: b :: t).drop merges) ++ [mergerContent ((a :: b :: t).take merges)])

theorem mergeLoopF_nil (merges : Nat) : ∀ fuel, mergeLoopF merges fuel [] = none := by
  intro fuel
  induction fuel with
  | zero => rfl
  | succ n ih => rw [mergeLoopF, ih]

theorem mergeLoopF_perm {merges : Nat} :
    ∀ {fuel : Nat} {q : List (List Int)} {out : List Int},
      mergeLoopF merges fuel q = some out → List.Perm out q.flatten := by
  intro fuel
  induction fuel with
  | zero => intro q out h; simp [mergeLoopF] at h
  | succ n ih =>
    intro q out h
    match q with
    | [] => rw [mergeLoopF, mergeLoopF_nil] at h; exact absurd h (by simp)
    | [x] =>
      rw [mergeLoopF] at h
      simp only [Option.some.injEq] at h
      rw [← h]; simp
    | a :: b :: t =>
      rw [mergeLoopF] at h
      have hrec := ih h
      rw [List.flatten_append] at hrec
      have hm : List.Perm ([mergerContent ((a :: b :: t).take merges)].flatten)
          ((a :: b :: t).take merges).flatten := by
        simpa using mergerContent_perm ((a :: b :: t).take merges)
      have h2 : List.Perm out
          (((a :: b :: t).drop merges).flatten ++ ((a :: b :: t).take merges).flatten) :=
        hrec.trans (hm.append_left _)
      have h3 : List.Perm
          (((a :: b :: t).drop merges).flatten ++ ((a :: b :: t).take merges).flatten)
          (((a :: b :: t).take merges).flatten ++ ((a :: b :: t).drop merges).flatten) :=
        List.perm_append_comm
      have h4 : ((a :: b :: t).take merges).flatten ++ ((a :: b :: t).drop merges).flatten
          = (a :: b :: t).flatten := by
        rw [← List.flatten_append, List.take_append_drop]
      exact (h2.trans h3).trans (h4 ▸ List.Perm.refl _)

theorem mergeLoopF_sorted {merges : Nat} :
    ∀ {fuel : Nat} {q : List (List Int)} {out : List Int},
      mergeLoopF merges fuel q = some out →
      (∀ s ∈ q, s.Sorted (· ≤ ·)) → out.Sorted (· ≤ ·) := by
  intro fuel
  induction fuel with
  | zero => intro q out h _; simp [mergeLoopF] at h
  | succ n ih =>
    intro q out h hs
    match q with
    | [] => rw [mergeLoopF, mergeLoopF_nil] at h; exact absurd h (by simp)
    | [x] =>
      rw [mergeLoopF] at h
      simp only [Option.some.injEq] at h
      rw [← h]; exact hs x (by simp)
    | a :: b :: t =>
      rw [mergeLoopF] at h
      refine ih h ?_
      intro s hsmem
      rcases List.mem_append.mp hsmem with hdrop | hunit
      · exact hs s (List.mem_of_mem_drop hdrop)
      · rcases List.mem_singleton.mp hunit with rfl
        exact mergerContent_sorted (fun u hu => hs u (List.mem_of_mem_take hu))

theorem mergeLoopF_isSome {merges : Nat} (hm : 2 ≤ merges) :
    ∀ {fuel : Nat} {q : List (List Int)}, 1 ≤ q.length → q.length ≤ fuel →
      (mergeLoopF merges fuel q).isSome := by
  intro fuel
  induction fuel with
  | zero => intro q h1 h2; omega
  | succ n ih =>
    intro q h1 h2
    match q with
    | [] => simp at h1
    | [x] => rw [mergeLoopF]; rfl
    | a :: b :: t =>
      rw [mergeLoopF]
      apply ih
      · simp
      · simp only [List.length_append, List.length_drop, List.length_cons,
          List.length_singleton, List.length_nil]
        simp only [List.length_cons] at h2
        omega

/-- The control flow of the reduction loop depends only on the length of the
queue, so success at a given fuel transfers between queues of equal length. -/
theorem mergeLoopF_isSome_congr {merges : Nat} :
    ∀ {fuel : Nat} {q q' : List (List Int)}, q.length = q'.length →
      (mergeLoopF merges fuel q).isSome → (mergeLoopF merges fuel q').isSome := by
  intro fuel
  induction fuel with
  | zero => intro q q' _ h; simp [mergeLoopF] at h
  | succ n ih =>
    intro q q' hlen h
    match q, q', hlen with
    | [], [], _ => exact h
    | [x], [y], _ => rw [mergeLoopF]; rfl
    | a :: b :: t, c :: d :: u, hlen =>
      rw [mergeLoopF] at h ⊢
      refine ih ?_ h
      simp only [List.length_append, List.length_drop, List.length_cons,
        List.length_singleton] at *
      omega
    | [], _ :: _, hlen => simp at hlen
    | _ :: _, [], hlen => simp at hlen
    | [x], _ :: _ :: _, hlen => simp at hlen
    | _ :: _ :: _, [y], hlen => simp at hlen

/-- The whole sort pipeline of sort.py at the record level under the
sequential completion schedule: cut the input into segments of INT_PER_FILE
records, sort each segment, then run the merge reduction until one segment
remains. -/
def sortModel (fuel : Nat) (records : List Int) : Option (List Int) :=
  mergeLoopF MERGES fuel ((chunksF INT_PER_FILE records.length records).map sorterRecords)

/-- Byte-level wrapper for the pipeline: decode the input file into records,
run the pipeline, encode the resulting records as the output file. -/
def sortFile (fuel : Nat) (bytes : List Nat) : Option (List Nat) :=
  (sortModel fuel (decodeInts bytes)).map encodeInts

theorem map_sorterRecords_flatten_perm (ll : List (List Int)) :
    List.Perm ((ll.map sorterRecords).flatten) ll.flatten := by
  induction ll with
  | nil => rfl
  | cons s ls ih =>
    simp only [List.map_cons, List.flatten_cons]
    exact (List.perm_insertionSort (· ≤ ·) s).append ih

theorem sortModel_some_perm {fuel : Nat} {r out : List Int}
    (h : sortModel fuel r = some out) : List.Perm out r := by
  have h1 := mergeLoopF_perm h
  have h2 := map_sorterRecords_flatten_perm (chunksF INT_PER_FILE r.length r)
  have h3 : (chunksF INT_PER_FILE r.length r).flatten = r :=
    chunksF_flatten INT_PER_FILE_pos r.length r (Nat.le_refl _)
  rw [← h3]
  exact h1.trans h2

theorem sortModel_some_sorted {fuel : Nat} {r out : List Int}
    (h : sortModel fuel r = some out) : out.Sorted (· ≤ ·) := by
  refine mergeLoopF_sorted h ?_
  intro s hs
  obtain ⟨u, _, rfl⟩ := List.mem_map.mp hs
  exact List.sorted_insertionSort (· ≤ ·) u

/-! ### Filesystem model for merger -/

/-- Temp-file paths. -/
abbrev Path := Nat

/-- A filesystem: the association of existing paths with their record
content. -/
abbrev FS := List (Path × List Int)

/-- The paths of the files that exist. -/
def fileNames (fs : FS) : List Path := fs.map Prod.fst

/-- Content of the file at p, empty if absent. -/
def readFile (fs : FS) (p : Path) : List Int :=
  ((fs.find? (fun e => e.1 == p)).map Prod.snd).getD []

/-- os.unlink: remove the file at p; an error if it does not exist.  The
error value carries the filesystem at the point of failure. -/
def unlink (fs : FS) (p : Path) : Except FS FS :=
  if p ∈ fileNames fs then Except.ok (fs.filter (fun e => !(e.1 == p)))
  else Except.error fs

/-- The unlink loop at the end of merger. -/
def unlinkAll : FS → List Path → Except FS FS
  | fs, [] => Except.ok fs
  | fs, p :: ps =>
    match unlink fs p with
    | Except.ok fs' => unlinkAll fs' ps
    | Except.error fs' => Except.error fs'

/-- merge_files on the filesystem: create a fresh temp file at newPath and
stream the k-way merge of the input files into it.  A failure mid-merge (an
I/O or read error, rendered by the failMerge flag) propagates the exception
after some prefix partOut of the output has been written to the unpublished
temp file; the inputs are untouched either way, because merge_files never
deletes anything. -/
def mergeFilesFS (fs : FS) (fnList : List Path) (newPath : Path)
    (failMerge : Bool) (partOut : List Int) : Except FS (Path × FS) :=
  if failMerge then Except.error ((newPath, partOut) :: fs)
  else
    Except.ok (newPath, (newPath, mergeFilesContent (fnList.map (readFile fs))) :: fs)

/-- merger on the filesystem: a single input is returned unchanged;
otherwise merge_files runs first and only after it returns is every input
unlinked. -/
def merger (fs : FS) (fnList : List Path) (newPath : Path)
    (failMerge : Bool) (partOut : List Int) : Except FS (Path × FS) :=
  if fnList.length = 1 then Except.ok (fnList.headI, fs)
  else
    match mergeFilesFS fs fnList newPath failMerge partOut with
    | Except.error fs' => Except.error fs'
    | Except.ok (res, fs') =>
      match unlinkAll fs' fnList with
      | Except.ok fs2 => Except.ok (res, fs2)
      | Except.error fs2 => Except.error fs2

theorem fileNames_filter (fs : FS) (p q : Path) :
    q ∈ fileNames (fs.filter (fun e => !(e.1 == p))) ↔
      q ∈ fileNames fs ∧ q ≠ p := by
  simp only [fileNames, List.mem_map, List.mem_filter]
  constructor
  · rintro ⟨e, ⟨hmem, hne⟩, rfl⟩
    simp only [Bool.not_eq_eq_eq_not, Bool.not_true, beq_eq_false_iff_ne] at hne
    exact ⟨⟨e, hmem, rfl⟩, hne⟩
  · rintro ⟨⟨e, hmem, rfl⟩, hne⟩
    refine ⟨e, ⟨hmem, ?_⟩, rfl⟩
    simp only [Bool.not_eq_eq_eq_not, Bool.not_true, beq_eq_false_iff_ne]
    exact hne

theorem unlinkAll_ok :
    ∀ (ps : List Path) (fs : FS), ps.Nodup → (∀ p ∈ ps, p ∈ fileNames fs) →
      ∃ fs', unlinkAll fs ps = Except.ok fs' ∧
        ∀ q, q ∈ fileNames fs' ↔ q ∈ fileNames fs ∧ q ∉ ps := by
  intro ps
  induction ps with
  | nil =>
    intro fs _ _
    exact ⟨fs, rfl, by simp⟩
  | cons p t ih =>
    intro fs hnodup hmem
    have hp : p ∈ fileNames fs := hmem p (by simp)
    have hstep : unlink fs p = Except.ok (fs.filter (fun e => !(e.1 == p))) := by
      rw [unlink, if_pos hp]
    have hnodup' : t.Nodup := (List.nodup_cons.mp hnodup).2
    have hpt : p ∉ t := (List.nodup_cons.mp hnodup).1
    have hmem' : ∀ q ∈ t, q ∈ fileNames (fs.filter (fun e => !(e.1 == p))) := by
      intro q hq
      rw [fileNames_filter]
      refine ⟨hmem q (by simp [hq]), ?_⟩
      intro hqp
      exact hpt (hqp ▸ hq)
    obtain ⟨fs', hrun, hchar⟩ := ih (fs.filter (fun e => !(e.1 == p))) hnodup' hmem'
    refine ⟨fs', ?_, ?_⟩
    · rw [unlinkAll, hstep]
      exact hrun
    · intro q
      rw [hchar q, fileNames_filter]
      simp only [List.mem_cons]
      constructor
      · rintro ⟨⟨h1, h2⟩, h3⟩
        exact ⟨h1, by intro h; rcases h with h | h; exact h2 h; exact h3 h⟩
      · rintro ⟨h1, h2⟩
        exact ⟨⟨h1, fun h => h2 (Or.inl h)⟩, fun h => h2 (Or.inr h)⟩

/-! ### file_reader, the sorter read and cutter at the byte level -/

/-- One fromfile call of file_reader reads at most INT_PER_CHUNK records,
that is INT_PER_CHUNK * RECORD_WIDTH bytes.  CPython array.fromfile
semantics (Modules/arraymodule.c): the bytes actually read are appended as
whole items via frombytes, which raises ValueError when the byte count is
not a multiple of the item size; after appending, a short read raises
EOFError, which file_reader catches to end its loop.  A ValueError escapes
file_reader.  Fuel bytes.length + 1 always suffices because every recursive
step consumes a full positive-size window. -/
def fileReaderF : Nat → List Nat → Except Unit (List Int)
  | 0, _ => Except.error ()
  | fuel + 1, bytes =>
    if (bytes.take (INT_PER_CHUNK * RECORD_WIDTH)).length % RECORD_WIDTH = 0 then
      if (bytes.take (INT_PER_CHUNK * RECORD_WIDTH)).length
          = INT_PER_CHUNK * RECORD_WIDTH then
        match fileReaderF fuel (bytes.drop (INT_PER_CHUNK * RECORD_WIDTH)) with
        | Except.ok rest =>
          Except.ok (decodeInts (bytes.take (INT_PER_CHUNK * RECORD_WIDTH)) ++ rest)
        | Except.error e => Except.error e
      else Except.ok (decodeInts (bytes.take (INT_PER_CHUNK * RECORD_WIDTH)))
    else Except.error ()

/-- file_reader of sort.py on the byte content of a file. -/
def fileReaderB (bytes : List Nat) : Except Unit (List Int) :=
  fileReaderF (bytes.length + 1) bytes

/-- The single fromfile call of sorter: read at most INT_PER_FILE records
from the segment file.  Whole items are appended; a trailing item fragment
raises ValueError, which sorter does not catch (it only catches EOFError). -/
def sorterReadB (bytes : List Nat) : Except Unit (List Int) :=
  if (bytes.take (INT_PER_FILE * RECORD_WIDTH)).length % RECORD_WIDTH = 0 then
    Except.ok (decodeInts (bytes.take (INT_PER_FILE * RECORD_WIDTH)))
  else Except.error ()

/-- cutter of sort.py: read the input file in windows of
INT_PER_FILE * 4 bytes, write each window verbatim to a fresh temp file and
yield it; stop at the first empty read. -/
def cutter (bytes : List Nat) : List (List Nat) :=
  chunksF (INT_PER_FILE * RECORD_WIDTH) bytes.length bytes

theorem fileReaderF_not_dvd :
    ∀ (fuel : Nat) (bytes : List Nat), bytes.length < fuel →
      bytes.length % RECORD_WIDTH ≠ 0 → fileReaderF fuel bytes = Except.error () := by
  intro fuel
  induction fuel with
  | zero => intro bytes h _; omega
  | succ n ih =>
    intro bytes hlt hmod
    by_cases hshort : bytes.length ≤ INT_PER_CHUNK * RECORD_WIDTH
    · have htake : bytes.take (INT_PER_CHUNK * RECORD_WIDTH) = bytes :=
        List.take_of_length_le hshort
      rw [fileReaderF, htake, if_neg hmod]
    · push_neg at hshort
      have hCB : INT_PER_CHUNK * RECORD_WIDTH = 16384 := rfl
      have hW : RECORD_WIDTH = 4 := rfl
      rw [hCB] at hshort
      have htlen : (bytes.take (INT_PER_CHUNK * RECORD_WIDTH)).length
          = INT_PER_CHUNK * RECORD_WIDTH := by
        rw [List.length_take, hCB]
        omega
      have hdlen : (bytes.drop (INT_PER_CHUNK * RECORD_WIDTH)).length
          = bytes.length - 16384 := by
        rw [List.length_drop, hCB]
      have hrec := ih (bytes.drop (INT_PER_CHUNK * RECORD_WIDTH))
        (by rw [hdlen]; omega)
        (by
          rw [hdlen, hW]
          rw [hW] at hmod
          omega)
      rw [fileReaderF, htlen]
      rw [if_pos (by rw [hCB, hW]), if_pos rfl, hrec]

/-! ### The byte-level cutter agrees with the record-level chunking -/

theorem decodeInts_take :
    ∀ (k : Nat) (bytes : List Nat),
      decodeInts (bytes.take (4 * k)) = (decodeInts bytes).take k := by
  intro k
  induction k with
  | zero => intro bytes; simp [decodeInts]
  | succ n ih =>
    intro bytes
    rcases bytes with _ | ⟨a, _ | ⟨b, _ | ⟨c, _ | ⟨d, rest⟩⟩⟩⟩
    · simp [decodeInts]
    · rw [List.take_of_length_le (by simp; omega)]; rfl
    · rw [List.take_of_length_le (by simp; omega)]; rfl
    · rw [List.take_of_length_le (by simp; omega)]; rfl
    · rw [show 4 * (n + 1) = 4 * n + 1 + 1 + 1 + 1 by ring]
      simp only [List.take_succ_cons]
      rw [decodeInts, decodeInts, List.take_succ_cons, ih rest]

theorem decodeInts_drop :
    ∀ (k : Nat) (bytes : List Nat),
      decodeInts (bytes.drop (4 * k)) = (decodeInts bytes).drop k := by
  intro k
  induction k with
  | zero => intro bytes; simp
  | succ n ih =>
    intro bytes
    rcases bytes with _ | ⟨a, _ | ⟨b, _ | ⟨c, _ | ⟨d, rest⟩⟩⟩⟩
    · simp [decodeInts]
    · rw [List.drop_of_length_le (by simp; omega)]; simp [decodeInts]
    · rw [List.drop_of_length_le (by simp; omega)]; simp [decodeInts]
    · rw [List.drop_of_length_le (by simp; omega)]; simp [decodeInts]
    · rw [show 4 * (n + 1) = 4 * n + 1 + 1 + 1 + 1 by ring]
      simp only [List.drop_succ_cons]
      rw [decodeInts, List.drop_succ_cons, ih rest]

theorem chunksF_fuel_congr {k : Nat} (hk : 0 < k) :
    ∀ {fuel fuel' : Nat} (l : List α), l.length ≤ fuel → l.length ≤ fuel' →
      chunksF k fuel l = chunksF k fuel' l := by
  intro fuel
  induction fuel with
  | zero =>
    intro fuel' l h1 _
    have : l = [] := List.eq_nil_of_length_eq_zero (Nat.le_zero.mp h1)
    rw [this, chunksF_nil, chunksF_nil]
  | succ n ih =>
    intro fuel' l h1 h2
    cases l with
    | nil => rw [chunksF_nil, chunksF_nil]
    | cons a t =>
      cases fuel' with
      | zero => simp at h2
      | succ m =>
        rw [chunksF, chunksF]
        congr 1
        apply ih
        · simp only [List.length_drop, List.length_cons]
          simp only [List.length_cons] at h1
          omega
        · simp only [List.length_drop, List.length_cons]
          simp only [List.length_cons] at h2
          omega

theorem chunks_decode_aux :
    ∀ (fuel : Nat) (bytes : List Nat), bytes.length ≤ fuel →
      RECORD_WIDTH ∣ bytes.length →
      (chunksF (INT_PER_FILE * RECORD_WIDTH) fuel bytes).map decodeInts
        = chunksF INT_PER_FILE fuel (decodeInts bytes) := by
  intro fuel
  induction fuel with
  | zero =>
    intro bytes h1 _
    have : bytes = [] := List.eq_nil_of_length_eq_zero (Nat.le_zero.mp h1)
    rw [this]
    rfl
  | succ n ih =>
    intro bytes h1 h2
    rcases bytes with _ | ⟨a, _ | ⟨b, _ | ⟨c, _ | ⟨d, rest⟩⟩⟩⟩
    · rfl
    · obtain ⟨m, hm⟩ := h2; simp [RECORD_WIDTH] at hm; omega
    · obtain ⟨m, hm⟩ := h2; simp [RECORD_WIDTH] at hm; omega
    · obtain ⟨m, hm⟩ := h2; simp [RECORD_WIDTH] at hm; omega
    · rw [chunksF]
      have hdec : decodeInts (a :: b :: c :: d :: rest)
          = decodeNum a b c d :: decodeInts rest := rfl
      rw [hdec, chunksF, ← hdec]
      rw [List.map_cons]
      congr 1
      · have : INT_PER_FILE * RECORD_WIDTH = 4 * INT_PER_FILE := by
          rw [Nat.mul_comm]; rfl
        rw [this, decodeInts_take, hdec]
      · have hCB : INT_PER_FILE * RECORD_WIDTH = 4 * INT_PER_FILE := by
          rw [Nat.mul_comm]; rfl
        have hlen : ((a :: b :: c :: d :: rest).drop (INT_PER_FILE * RECORD_WIDTH)).length
            ≤ n := by
          rw [List.length_drop, hCB]
          simp only [List.length_cons] at h1 ⊢
          have : 0 < 4 * INT_PER_FILE := by decide
          omega
        have hdvd : RECORD_WIDTH ∣
            ((a :: b :: c :: d :: rest).drop (INT_PER_FILE * RECORD_WIDTH)).length := by
          rw [List.length_drop, hCB]
          obtain ⟨m, hm⟩ := h2
          simp only [RECORD_WIDTH] at hm ⊢
          exact ⟨m - INT_PER_FILE, by omega⟩
        rw [ih _ hlen hdvd, hCB, decodeInts_drop, hdec]

/-- For a whole number of records, cutter followed by per-segment decoding is
exactly the record-level chunking that sortModel performs. -/
theorem cutter_decode {bytes : List Nat} (h : RECORD_WIDTH ∣ bytes.length) :
    (cutter bytes).map decodeInts
      = chunksF INT_PER_FILE (decodeInts bytes).length (decodeInts bytes) := by
  rw [cutter, chunks_decode_aux bytes.length bytes (Nat.le_refl _) h]
  apply chunksF_fuel_congr INT_PER_FILE_pos
  · rw [decodeInts_length h]
    unfold RECORD_WIDTH
    omega
  · exact Nat.le_refl _

/-! ### Shared elimination for completed runs of the byte-level pipeline -/

theorem sortFile_some_elim {fuel : Nat} {bytes out : List Nat}
    (hbyte : ∀ x ∈ bytes, x < 256) (h : sortFile fuel bytes = some out) :
    ∃ res, sortModel fuel (decodeInts bytes) = some res ∧
      out = encodeInts res ∧ decodeInts out = res ∧
      List.Perm res (decodeInts bytes) ∧ res.Sorted (· ≤ ·) := by
  rw [sortFile] at h
  obtain ⟨res, hres, hout⟩ := Option.map_eq_some'.mp h
  have hperm : List.Perm res (decodeInts bytes) := sortModel_some_perm hres
  have hrange : ∀ i ∈ res, InRange i := fun i hi =>
    decodeInts_inRange hbyte i (hperm.mem_iff.mp hi)
  refine ⟨res, hres, hout.symm, ?_, hperm, sortModel_some_sorted hres⟩
  rw [← hout, decodeInts_encodeInts hrange]

/-! ### The claims -/

/-- Claim C1: for every input file whose byte length is a multiple of the
record width, a completed run of the sort pipeline yields an output file
whose multiset of records equals the multiset of records of the input; no
record is lost and none is duplicated. -/
theorem sort_preserves_record_multiset (bytes out : List Nat) (fuel : Nat)
    (hbyte : ∀ x ∈ bytes, x < 256) (_hdvd : bytes.length % RECORD_WIDTH = 0)
    (hrun : sortFile fuel bytes = some out) :
    ((decodeInts out : List Int) : Multiset Int)
      = ((decodeInts bytes : List Int) : Multiset Int) := by
  obtain ⟨res, _, _, hdec, hperm, _⟩ := sortFile_some_elim hbyte hrun
  rw [hdec, Multiset.coe_eq_coe]
  exact hperm

theorem sort_preserves_record_multiset_witness :
    ((decodeInts [1, 0, 0, 0, 2, 0, 0, 0] : List Int) : Multiset Int)
      = ((decodeInts [2, 0, 0, 0, 1, 0, 0, 0] : List Int) : Multiset Int) :=
  sort_preserves_record_multiset [2, 0, 0, 0, 1, 0, 0, 0] [1, 0, 0, 0, 2, 0, 0, 0] 1
    (by decide) (by decide) (by rfl)

/-- Claim C2: for every input file whose byte length is a multiple of the
record width, the record sequence of a completed run's output file is
globally non-decreasing: every adjacent pair satisfies left at most right. -/
theorem sort_output_non_decreasing (bytes out : List Nat) (fuel : Nat)
    (hbyte : ∀ x ∈ bytes, x < 256) (_hdvd : bytes.length % RECORD_WIDTH = 0)
    (hrun : sortFile fuel bytes = some out) :
    List.Chain' (· ≤ ·) (decodeInts out) := by
  obtain ⟨res, _, _, hdec, _, hsorted⟩ := sortFile_some_elim hbyte hrun
  rw [hdec]
  exact hsorted.chain'

theorem sort_output_non_decreasing_witness :
    List.Chain' (· ≤ ·) (decodeInts [255, 255, 255, 255, 3, 0, 0, 0]) :=
  sort_output_non_decreasing [3, 0, 0, 0, 255, 255, 255, 255]
    [255, 255, 255, 255, 3, 0, 0, 0] 1 (by decide) (by decide) (by rfl)

/-- Claim C5: on an empty input file the pipeline produces no output at all:
the merge_tasks loop closes, joins and renews its pool forever because the
ready queue stays empty, so no fuel bound makes the run yield an output
(and sorted_fn_list[0] in sort would fail even if it returned).  The code
therefore contradicts the specified boundary behaviour that an empty input
yields an empty output file. -/
theorem sort_empty_input_never_terminates (fuel : Nat) :
    sortFile fuel [] = none ∧ mergeLoopF MERGES fuel [] = none := by
  constructor
  · rw [sortFile, sortModel]
    have h1 : decodeInts [] = [] := rfl
    rw [h1]
    have h2 : chunksF INT_PER_FILE ([] : List Int).length ([] : List Int) = [] := rfl
    rw [h2, List.map_nil, mergeLoopF_nil]
    rfl
  · exact mergeLoopF_nil MERGES fuel

/-- Claim C8: re-sorting is idempotent; a completed run on the output of a
previous run reproduces that output byte for byte, with the same fuel. -/
theorem sort_idempotent (bytes out : List Nat) (fuel : Nat)
    (hbyte : ∀ x ∈ bytes, x < 256) (_hdvd : bytes.length % RECORD_WIDTH = 0)
    (hrun : sortFile fuel bytes = some out) :
    sortFile fuel out = some out := by
  obtain ⟨res, hres, hout, hdec, hperm, hsorted⟩ := sortFile_some_elim hbyte hrun
  rw [sortFile, hdec]
  rw [sortModel] at hres ⊢
  have hlen : (decodeInts bytes).length = res.length := hperm.length_eq.symm
  have hq : ((chunksF INT_PER_FILE (decodeInts bytes).length
        (decodeInts bytes)).map sorterRecords).length
      = ((chunksF INT_PER_FILE res.length res).map sorterRecords).length := by
    simp only [List.length_map]
    rw [hlen]
    exact chunksF_length_congr hlen
  have hsome : (mergeLoopF MERGES fuel
      ((chunksF INT_PER_FILE res.length res).map sorterRecords)).isSome :=
    mergeLoopF_isSome_congr hq (by rw [hres]; rfl)
  obtain ⟨res2, hres2⟩ := Option.isSome_iff_exists.mp hsome
  have hres2' : sortModel fuel res = some res2 := by rw [sortModel]; exact hres2
  have hperm2 : List.Perm res2 res := sortModel_some_perm hres2'
  have hsorted2 : res2.Sorted (· ≤ ·) := sortModel_some_sorted hres2'
  have heq : res2 = res := List.eq_of_perm_of_sorted hperm2 hsorted2 hsorted
  rw [hres2, heq, Option.map_some', ← hout]

theorem sort_idempotent_witness :
    sortFile 1 [1, 0, 0, 0, 2, 0, 0, 0] = some [1, 0, 0, 0, 2, 0, 0, 0] :=
  sort_idempotent [2, 0, 0, 0, 1, 0, 0, 0] [1, 0, 0, 0, 2, 0, 0, 0] 1
    (by decide) (by decide) (by rfl)

/-- Claim C3: merging two or more distinct existing segment files deletes
every input exactly when the merge succeeds; a failure during the merge
itself (before the unlink loop is reached) leaves every input file on
disk. -/
theorem merger_destructive_on_success_only (fs : FS) (fnList : List Path)
    (newPath : Path) (partOut : List Int)
    (hlen : 2 ≤ fnList.length) (hnodup : fnList.Nodup)
    (hmem : ∀ p ∈ fnList, p ∈ fileNames fs) (_hnew : newPath ∉ fnList) :
    (∃ res fs', merger fs fnList newPath false partOut = Except.ok (res, fs') ∧
        ∀ p ∈ fnList, p ∉ fileNames fs') ∧
    (∃ fs', merger fs fnList newPath true partOut = Except.error fs' ∧
        ∀ p ∈ fnList, p ∈ fileNames fs') := by
  have hne1 : fnList.length ≠ 1 := by omega
  constructor
  · have hmf : mergeFilesFS fs fnList newPath false partOut
        = Except.ok (newPath,
            (newPath, mergeFilesContent (fnList.map (readFile fs))) :: fs) := rfl
    have hmem1 : ∀ p ∈ fnList,
        p ∈ fileNames ((newPath, mergeFilesContent (fnList.map (readFile fs))) :: fs) := by
      intro p hp
      simp only [fileNames, List.map_cons, List.mem_cons]
      exact Or.inr (hmem p hp)
    obtain ⟨fs', hrun, hchar⟩ := unlinkAll_ok fnList
      ((newPath, mergeFilesContent (fnList.map (readFile fs))) :: fs) hnodup hmem1
    refine ⟨newPath, fs', ?_, ?_⟩
    · rw [merger, if_neg hne1, hmf]
      dsimp only
      rw [hrun]
    · intro p hp hcontra
      exact ((hchar p).mp hcontra).2 hp
  · have hmf : mergeFilesFS fs fnList newPath true partOut
        = Except.error ((newPath, partOut) :: fs) := rfl
    refine ⟨(newPath, partOut) :: fs, ?_, ?_⟩
    · rw [merger, if_neg hne1, hmf]
    · intro p hp
      simp only [fileNames, List.map_cons, List.mem_cons]
      exact Or.inr (hmem p hp)

theorem merger_destructive_on_success_only_witness :
    (∃ res fs', merger [(0, [5]), (1, [3])] [0, 1] 2 false [] = Except.ok (res, fs') ∧
        ∀ p ∈ [0, 1], p ∉ fileNames fs') ∧
    (∃ fs', merger [(0, [5]), (1, [3])] [0, 1] 2 true [] = Except.error fs' ∧
        ∀ p ∈ [0, 1], p ∈ fileNames fs') :=
  merger_destructive_on_success_only [(0, [5]), (1, [3])] [0, 1] 2 []
    (by decide) (by decide) (by decide) (by decide)

/-- Claim C4: merging a single-element path list is a no-op short-circuit:
the same path comes back and the filesystem, hence every file content, is
untouched; nothing is created and nothing is deleted. -/
theorem merger_single_input_noop (fs : FS) (p newPath : Path)
    (failMerge : Bool) (partOut : List Int) :
    merger fs [p] newPath failMerge partOut = Except.ok (p, fs) := rfl

/-- Claim C6: for every fan-in limit of at least two and every nonempty
queue of individually sorted ready segments, the reduction loop terminates
(fuel equal to the queue length suffices) with exactly one remaining
segment, which is sorted and carries exactly the records of all the input
segments. -/
theorem merge_reduction_terminates (merges : Nat) (q : List (List Int))
    (hm : 2 ≤ merges) (hq : q ≠ [])
    (hsorted : ∀ s ∈ q, List.Chain' (· ≤ ·) s) :
    ∃ out, mergeLoopF merges q.length q = some out ∧
      List.Chain' (· ≤ ·) out ∧
      ((out : List Int) : Multiset Int) = ((q.flatten : List Int) : Multiset Int) := by
  have h1 : 1 ≤ q.length := List.length_pos.mpr hq
  have hsome := mergeLoopF_isSome hm h1 (Nat.le_refl _)
  obtain ⟨out, hout⟩ := Option.isSome_iff_exists.mp hsome
  refine ⟨out, hout, ?_, ?_⟩
  · have hsorted' : ∀ s ∈ q, s.Sorted (· ≤ ·) := fun s hs =>
      List.chain'_iff_pairwise.mp (hsorted s hs)
    exact (mergeLoopF_sorted hout hsorted').chain'
  · rw [Multiset.coe_eq_coe]
    exact mergeLoopF_perm hout

theorem merge_reduction_terminates_witness :
    ∃ out, mergeLoopF 2 5 [[1, 2], [0, 3], [5, 6], [4, 7], [8, 9]] = some out ∧
      List.Chain' (· ≤ ·) out ∧
      ((out : List Int) : Multiset Int)
        = (([[1, 2], [0, 3], [5, 6], [4, 7], [8, 9]].flatten : List Int) : Multiset Int) :=
  merge_reduction_terminates 2 [[1, 2], [0, 3], [5, 6], [4, 7], [8, 9]]
    (by decide) (by decide)
    (by norm_num [List.chain'_cons, List.chain'_singleton])

/-- Claim C7: cutter partitions the input byte-exactly: every window but
possibly the last holds exactly INT_PER_FILE records (INT_PER_FILE * 4
bytes), the last may be shorter, and the concatenation of the windows in
yield order is the input file, so splitting reorders, drops and duplicates
nothing. -/
theorem cutter_window_partition (bytes : List Nat) :
    (cutter bytes).flatten = bytes ∧
    (∀ seg ∈ (cutter bytes).dropLast,
        seg.length = INT_PER_FILE * RECORD_WIDTH ∧
        (decodeInts seg).length = INT_PER_FILE) ∧
    (∀ seg ∈ cutter bytes, seg.length ≤ INT_PER_FILE * RECORD_WIDTH) := by
  refine ⟨?_, ?_, ?_⟩
  · exact chunksF_flatten (by decide) bytes.length bytes (Nat.le_refl _)
  · intro seg hseg
    have hlen : seg.length = INT_PER_FILE * RECORD_WIDTH :=
      chunksF_dropLast_length seg hseg
    refine ⟨hlen, ?_⟩
    have hdvd : RECORD_WIDTH ∣ seg.length := by
      rw [hlen]; exact Dvd.intro INT_PER_FILE rfl
    rw [decodeInts_length hdvd, hlen]
    rfl
  · exact chunksF_mem_length

theorem cutter_window_partition_witness :
    (cutter [9, 8, 7]).flatten = [9, 8, 7] ∧
    ∀ seg ∈ cutter [9, 8, 7], seg.length ≤ INT_PER_FILE * RECORD_WIDTH :=
  ⟨(cutter_window_partition [9, 8, 7]).1, (cutter_window_partition [9, 8, 7]).2.2⟩

/-- Claim C9 is false as stated: a trailing partial record is not read as an
incomplete final element of the record sequence.  On the five-byte file
below (one whole record plus one leftover byte) the stream reader raises
ValueError from frombytes (bytes length not a multiple of item size), which
file_reader does not catch, and the sorter's fromfile call does the same;
no record sequence is produced at all. -/
theorem file_reader_trailing_byte_counterexample :
    fileReaderB [0, 0, 0, 0, 1] = Except.error () ∧
    sorterReadB [0, 0, 0, 0, 1] = Except.error () := by
  constructor
  · rfl
  · rfl

/-- Claim C9 (amended): for an input file whose byte length is not a
multiple of the record width, decoding fails with an uncaught error (the
ValueError of frombytes): the stream reader errors, and so does the segment
sorter's read whenever the file fits its single fromfile call; the partial
record is neither delivered as an incomplete element nor silently
discarded. -/
theorem trailing_record_read_errors (bytes : List Nat)
    (h : bytes.length % RECORD_WIDTH ≠ 0) :
    fileReaderB bytes = Except.error () ∧
    (bytes.length ≤ INT_PER_FILE * RECORD_WIDTH →
      sorterReadB bytes = Except.error ()) := by
  constructor
  · exact fileReaderF_not_dvd (bytes.length + 1) bytes (Nat.lt_succ_self _) h
  · intro hle
    rw [sorterReadB, List.take_of_length_le hle, if_neg h]

theorem trailing_record_read_errors_witness :
    fileReaderB [7, 7, 7] = Except.error () ∧
    sorterReadB [7, 7, 7] = Except.error () :=
  ⟨(trailing_record_read_errors [7, 7, 7] (by decide)).1,
   (trailing_record_read_errors [7, 7, 7] (by decide)).2 (by decide)⟩

/-- Claim C10: the file written by merge_files holds exactly the sum of the
input record counts: the zero-filled pre-allocated block never leaks
padding into the output and the partially filled final block is flushed
without loss. -/
theorem merge_files_exact_record_count (contents : List (List Int)) :
    mergeFilesContent contents = mergeAllF contents.flatten.length contents ∧
    (mergeFilesContent contents).length = (contents.map List.length).sum := by
  constructor
  · exact writeChunked_eq INT_PER_CHUNK_pos _
  · rw [(mergeFilesContent_perm contents).length_eq, List.length_flatten]

end ExtSort
